import Mathlib

/-
Verification of the sparse Game of Life engine in `src/life.rs`
(`0not/game_of_life`).

The source works on `type Int = i32`, `type Pos = (Int, Int)`,
`type CellSetType = HashSet<Pos>`.  Release-mode Rust `i32` arithmetic is
two's-complement wrapping, so a coordinate component is modelled as an
integer mod 2^32 (`ZMod 4294967296`) and a cell set as a `Finset` of pairs.
-/

set_option maxHeartbeats 2000000

/-- Model of the source's coordinate component `Int` (Rust `i32`):
integers mod 2^32, matching two's-complement wrapping arithmetic. -/
abbrev Int32 : Type := ZMod 4294967296

/-- Model of `Pos = (Int, Int)`. -/
abbrev Pos : Type := Int32 × Int32

/-- Model of `CellSetType = HashSet<Pos>`: a finite set of positions. -/
abbrev CellSetType : Type := Finset Pos

/-- `CellSet::get_neighbors_keys` from `src/life.rs` lines 32-44: the set
built from the eight listed offset coordinates.  The `self` receiver is
unused by the source body; it is kept as the first argument. -/
def get_neighbors_keys (_S : CellSetType) (key : Pos) : CellSetType :=
  let x := key.1
  let y := key.2
  {(x - 1, y - 1), (x, y - 1), (x + 1, y - 1),
   (x - 1, y), (x + 1, y),
   (x - 1, y + 1), (x, y + 1), (x + 1, y + 1)}

/-- `CellSet::get_self_and_neighbors_keys` from `src/life.rs` lines 46-50:
the neighbor keys with the key itself inserted. -/
def get_self_and_neighbors_keys (S : CellSetType) (key : Pos) : CellSetType :=
  insert key (get_neighbors_keys S key)

/-- `CellSet::count_neighbors` from `src/life.rs` lines 52-57: sum of
`contains` (as 0/1) over the neighbor-key set.  The source returns `u8`;
the count is at most 8 so `Nat` is exact. -/
def count_neighbors (S : CellSetType) (key : Pos) : Nat :=
  (get_neighbors_keys S key).sum (fun k => if k ∈ S then 1 else 0)

/-- The per-candidate rule inside `CellSet::update_cells` (`src/life.rs`
lines 70-81): stay alive on count 2 or 3, come alive on count 3. -/
def ruleHolds (S : CellSetType) (key : Pos) : Prop :=
  let count := count_neighbors S key
  let alive := key ∈ S
  (alive ∧ (count = 2 ∨ count = 3)) ∨ (¬ alive ∧ count = 3)

instance decRuleHolds (S : CellSetType) (key : Pos) : Decidable (ruleHolds S key) := by
  unfold ruleHolds
  infer_instance

/-- `CellSet::update_cells` from `src/life.rs` lines 59-91: candidates are
the live cells together with their neighbors; the rule keeps a candidate
(`Some`) or drops it (`None`); the kept keys are collected into a set. -/
def update_cells (S : CellSetType) : CellSetType :=
  let cells_to_check := S.biUnion (fun k => get_self_and_neighbors_keys S k)
  cells_to_check.filter (ruleHolds S)

/-- `update_cells` applied `n` times. -/
def iterate_update : Nat → CellSetType → CellSetType
  | 0, S => S
  | n + 1, S => iterate_update n (update_cells S)

/-- `CellSetBuilder` from `src/life.rs` lines 94-97. -/
structure CellSetBuilder where
  draft : CellSetType
  committed : CellSetType

/-- `CellSetBuilder::new`. -/
def CellSetBuilder.new : CellSetBuilder := ⟨∅, ∅⟩

/-- `CellSetBuilder::commit`: union the draft into the committed set and
clear the draft. -/
def CellSetBuilder.commit (b : CellSetBuilder) : CellSetBuilder :=
  ⟨∅, b.committed ∪ b.draft⟩

/-- `CellSetBuilder::build`: commit, then return the committed set. -/
def CellSetBuilder.build (b : CellSetBuilder) : CellSetType :=
  b.commit.committed

/-- `CellSetBuilder::translate` from `src/life.rs` lines 118-122: map
componentwise addition of the translation vector over the draft. -/
def CellSetBuilder.translate (b : CellSetBuilder) (trans_vec : Pos) : CellSetBuilder :=
  let x := trans_vec.1
  let y := trans_vec.2
  ⟨b.draft.image (fun c => (c.1 + x, c.2 + y)), b.committed⟩

/-- `CellSetBuilder::glider` from `src/life.rs` lines 125-131. -/
def CellSetBuilder.glider (b : CellSetBuilder) : CellSetBuilder :=
  ⟨{(-1, 0), (0, 0), (1, 0), (1, -1), (0, -2)}, b.commit.committed⟩

/-- `CellSetBuilder::blinker` from `src/life.rs` lines 133-139. -/
def CellSetBuilder.blinker (b : CellSetBuilder) : CellSetBuilder :=
  ⟨{(-1, 0), (0, 0), (1, 0)}, b.commit.committed⟩

/-- The blinker population, as built by `CellSetBuilder::new().blinker().build()`. -/
def blinkerSet : CellSetType := CellSetBuilder.new.blinker.build

/-- The glider population, as built by `CellSetBuilder::new().glider().build()`. -/
def gliderSet : CellSetType := CellSetBuilder.new.glider.build

/-- Componentwise translation of a whole cell set by a vector, the map
`CellSetBuilder::translate` applies to its draft. -/
def translateSet (v : Pos) (S : CellSetType) : CellSetType :=
  S.image (fun c => (c.1 + v.1, c.2 + v.2))

/-- The eight Moore offsets, in the order the source lists the neighbor
coordinates. -/
def offsets8 : Finset Pos :=
  {(-1, -1), (0, -1), (1, -1), (-1, 0), (1, 0), (-1, 1), (0, 1), (1, 1)}

/-- An integer offset vector of Chebyshev norm exactly 1. -/
def chebyshevOne (d : Int × Int) : Prop :=
  max d.1.natAbs d.2.natAbs = 1

instance decChebyshevOne (d : Int × Int) : Decidable (chebyshevOne d) := by
  unfold chebyshevOne
  infer_instance

/-- Image of an unbounded integer offset vector in the wrapping
coordinate type. -/
def castOffset (d : Int × Int) : Pos :=
  ((d.1 : Int32), (d.2 : Int32))

/-- Two's-complement decoding of a model coordinate back to the
mathematical integer an `i32` bit pattern denotes. -/
def toInt (a : Int32) : Int :=
  if a.val < 2147483648 then (a.val : Int) else (a.val : Int) - 4294967296

lemma get_neighbors_keys_eq_image (S : CellSetType) (key : Pos) :
    get_neighbors_keys S key = offsets8.image (fun d => key + d) := by
  obtain ⟨x, y⟩ := key
  simp only [get_neighbors_keys, offsets8, Finset.image_insert, Finset.image_singleton,
    Prod.mk_add_mk, sub_eq_add_neg, add_zero]

lemma card_get_neighbors_keys (S : CellSetType) (key : Pos) :
    (get_neighbors_keys S key).card = 8 := by
  rw [get_neighbors_keys_eq_image,
    Finset.card_image_of_injective _ (add_right_injective key)]
  decide

lemma self_not_mem_get_neighbors_keys (S : CellSetType) (key : Pos) :
    key ∉ get_neighbors_keys S key := by
  rw [get_neighbors_keys_eq_image]
  simp only [Finset.mem_image, not_exists, not_and]
  rintro d hd hkey
  have hd0 : d = 0 := add_right_eq_self.mp hkey
  subst hd0
  revert hd
  decide

lemma neg_mem_offsets8 : ∀ d ∈ offsets8, -d ∈ offsets8 := by
  simp only [offsets8, Finset.forall_mem_insert, Finset.mem_singleton, forall_eq]
  refine ⟨?_, ?_, ?_, ?_, ?_, ?_, ?_, ?_⟩ <;> decide

lemma mem_get_neighbors_keys_symm {S T : CellSetType} {a b : Pos}
    (h : a ∈ get_neighbors_keys S b) : b ∈ get_neighbors_keys T a := by
  rw [get_neighbors_keys_eq_image] at h ⊢
  simp only [Finset.mem_image] at h ⊢
  obtain ⟨d, hd, hab⟩ := h
  refine ⟨-d, neg_mem_offsets8 d hd, ?_⟩
  rw [← hab]
  ring

lemma count_neighbors_eq_card (S : CellSetType) (key : Pos) :
    count_neighbors S key = ((get_neighbors_keys S key).filter (fun p => p ∈ S)).card := by
  unfold count_neighbors
  rw [Finset.sum_boole, Nat.cast_id]

lemma count_neighbors_le_eight (S : CellSetType) (key : Pos) :
    count_neighbors S key ≤ 8 := by
  rw [count_neighbors_eq_card]
  calc ((get_neighbors_keys S key).filter (fun p => p ∈ S)).card
      ≤ (get_neighbors_keys S key).card := Finset.card_filter_le _ _
    _ = 8 := card_get_neighbors_keys S key

lemma exists_live_neighbor_of_count_ne_zero {S : CellSetType} {key : Pos}
    (h : count_neighbors S key ≠ 0) : ∃ c ∈ S, c ∈ get_neighbors_keys S key := by
  rw [count_neighbors_eq_card] at h
  have hne : ((get_neighbors_keys S key).filter (fun p => p ∈ S)).Nonempty := by
    rw [← Finset.card_pos]
    omega
  obtain ⟨c, hc⟩ := hne
  rw [Finset.mem_filter] at hc
  exact ⟨c, hc.2, hc.1⟩

lemma count_neighbors_erase (S : CellSetType) (key : Pos) :
    count_neighbors (S.erase key) key = count_neighbors S key := by
  unfold count_neighbors
  refine Finset.sum_congr rfl (fun p hp => ?_)
  have hpk : p ≠ key := by
    rintro rfl
    exact self_not_mem_get_neighbors_keys S _ hp
  simp [Finset.mem_erase, hpk]

lemma mem_offsets8_iff (q : Pos) :
    q ∈ offsets8 ↔ ∃ d : Int × Int, chebyshevOne d ∧ q = castOffset d := by
  constructor
  · intro hq
    simp only [offsets8, Finset.mem_insert, Finset.mem_singleton] at hq
    rcases hq with rfl | rfl | rfl | rfl | rfl | rfl | rfl | rfl
    · exact ⟨(-1, -1), by decide, by decide⟩
    · exact ⟨(0, -1), by decide, by decide⟩
    · exact ⟨(1, -1), by decide, by decide⟩
    · exact ⟨(-1, 0), by decide, by decide⟩
    · exact ⟨(1, 0), by decide, by decide⟩
    · exact ⟨(-1, 1), by decide, by decide⟩
    · exact ⟨(0, 1), by decide, by decide⟩
    · exact ⟨(1, 1), by decide, by decide⟩
  · rintro ⟨⟨dx, dy⟩, hche, rfl⟩
    have hx : dx = -1 ∨ dx = 0 ∨ dx = 1 := by
      have h := hche
      unfold chebyshevOne at h
      omega
    have hy : dy = -1 ∨ dy = 0 ∨ dy = 1 := by
      have h := hche
      unfold chebyshevOne at h
      omega
    have hxy : ¬ (dx = 0 ∧ dy = 0) := by
      rintro ⟨rfl, rfl⟩
      unfold chebyshevOne at hche
      omega
    rcases hx with rfl | rfl | rfl <;> rcases hy with rfl | rfl | rfl <;>
      first
        | decide
        | exact absurd ⟨rfl, rfl⟩ hxy

lemma translateSet_eq_image_add (v : Pos) (S : CellSetType) :
    translateSet v S = S.image (fun c => c + v) := rfl

lemma mem_translateSet_add {v : Pos} {S : CellSetType} (k : Pos) :
    k + v ∈ translateSet v S ↔ k ∈ S := by
  rw [translateSet_eq_image_add]
  constructor
  · intro h
    simp only [Finset.mem_image] at h
    obtain ⟨c, hc, hck⟩ := h
    rwa [← add_left_injective v hck]
  · exact fun h => Finset.mem_image_of_mem _ h

lemma get_neighbors_keys_translate (S T : CellSetType) (k v : Pos) :
    get_neighbors_keys S (k + v) = (get_neighbors_keys T k).image (fun c => c + v) := by
  rw [get_neighbors_keys_eq_image, get_neighbors_keys_eq_image, Finset.image_image]
  apply Finset.image_congr
  intro d _
  simp only [Function.comp]
  ring

lemma count_neighbors_translate (S : CellSetType) (k v : Pos) :
    count_neighbors (translateSet v S) (k + v) = count_neighbors S k := by
  rw [count_neighbors_eq_card, count_neighbors_eq_card,
    get_neighbors_keys_translate (translateSet v S) S k v, Finset.filter_image,
    Finset.card_image_of_injective _ (add_left_injective v)]
  congr 1
  apply Finset.filter_congr
  intro c _
  exact mem_translateSet_add c

lemma ruleHolds_translate (S : CellSetType) (v k : Pos) :
    ruleHolds (translateSet v S) (k + v) ↔ ruleHolds S k := by
  unfold ruleHolds
  simp only [count_neighbors_translate, mem_translateSet_add]

lemma candidates_translate (S : CellSetType) (v : Pos) :
    (translateSet v S).biUnion (fun k => get_self_and_neighbors_keys (translateSet v S) k)
      = (S.biUnion (fun k => get_self_and_neighbors_keys S k)).image (fun c => c + v) := by
  rw [translateSet_eq_image_add, Finset.image_biUnion, Finset.biUnion_image]
  apply Finset.biUnion_congr rfl
  intro c _
  unfold get_self_and_neighbors_keys
  rw [Finset.image_insert, get_neighbors_keys_translate _ S c v]

lemma add_one_wraps (a : Int32) :
    toInt (a + 1) = if toInt a = 2147483647 then -2147483648 else toInt a + 1 := by
  have hv : a.val < 4294967296 := ZMod.val_lt a
  have hadd : (a + 1).val = (a.val + 1) % 4294967296 := by
    rw [ZMod.val_add, show (1 : Int32).val = 1 from rfl]
  unfold toInt
  rw [hadd]
  split_ifs <;> omega

/-- Claim C1: for every `CellSet S` and coordinate `k`, `k` is in
`update_cells S` iff `k` is live with neighbor count 2 or 3, or dead with
neighbor count exactly 3; no qualifying coordinate outside the candidate
set is missed, because every dead cell with count 3 is a neighbor of some
live cell. -/
theorem mem_update_cells_iff (S : CellSetType) (k : Pos) :
    k ∈ update_cells S ↔
      ((k ∈ S ∧ (count_neighbors S k = 2 ∨ count_neighbors S k = 3)) ∨
       (k ∉ S ∧ count_neighbors S k = 3)) := by
  unfold update_cells
  rw [Finset.mem_filter]
  constructor
  · rintro ⟨-, hr⟩
    exact hr
  · intro hr
    refine ⟨?_, hr⟩
    rw [Finset.mem_biUnion]
    rcases hr with ⟨hk, -⟩ | ⟨-, h3⟩
    · exact ⟨k, hk, Finset.mem_insert_self _ _⟩
    · have hne : count_neighbors S k ≠ 0 := by omega
      obtain ⟨c, hcS, hcn⟩ := exists_live_neighbor_of_count_ne_zero hne
      exact ⟨c, hcS, Finset.mem_insert_of_mem (mem_get_neighbors_keys_symm hcn)⟩

/-- Claim C2: every coordinate in `update_cells S` lies within Chebyshev
distance 1 of some coordinate of `S`: the output is a subset of the union
over live cells `c` of `{c} ∪ neighbors(c)`, and every output cell is some
live cell plus an offset whose components have absolute value at most 1. -/
theorem update_cells_bounded_support (S : CellSetType) :
    update_cells S ⊆ S.biUnion (fun c => get_self_and_neighbors_keys S c) ∧
    ∀ p ∈ update_cells S, ∃ c ∈ S, ∃ d : Int × Int,
      d.1.natAbs ≤ 1 ∧ d.2.natAbs ≤ 1 ∧ p = c + castOffset d := by
  have hsub : update_cells S ⊆ S.biUnion (fun c => get_self_and_neighbors_keys S c) := by
    unfold update_cells
    exact Finset.filter_subset _ _
  refine ⟨hsub, fun p hp => ?_⟩
  obtain ⟨c, hcS, hpc⟩ := Finset.mem_biUnion.mp (hsub hp)
  rw [get_self_and_neighbors_keys, Finset.mem_insert] at hpc
  rcases hpc with rfl | hn
  · refine ⟨p, hcS, (0, 0), by decide, by decide, ?_⟩
    simp [castOffset]
  · rw [get_neighbors_keys_eq_image] at hn
    simp only [Finset.mem_image] at hn
    obtain ⟨q, hq, rfl⟩ := hn
    obtain ⟨d, hd, rfl⟩ := (mem_offsets8_iff q).mp hq
    have hd1 : d.1.natAbs ≤ 1 ∧ d.2.natAbs ≤ 1 := by
      unfold chebyshevOne at hd
      omega
    exact ⟨c, hcS, d, hd1.1, hd1.2, rfl⟩

/-- Claim C3 (counterexample): the implementation does silently wrap.  At
the concrete input `x = i32::MAX = 2147483647`, the east neighbor computed
by `get_neighbors_keys` has first component `x + 1`, which decodes to
`i32::MIN = -2147483648` rather than to the exact value `2147483648` (a
wide-enough type) or to a saturated `2147483647`. -/
theorem overflow_guard_counterexample :
    toInt ((2147483647 : Int32) + 1) = -2147483648 ∧
    ¬ (toInt ((2147483647 : Int32) + 1) = 2147483648 ∨
       toInt ((2147483647 : Int32) + 1) = 2147483647) ∧
    (((2147483648 : Int32), (0 : Int32)) : Pos) ∈
      get_neighbors_keys ∅ ((2147483647 : Int32), 0) := by
  refine ⟨by decide, by decide, by decide⟩

/-- Claim C3 (amended): Moore-neighborhood arithmetic is two's-complement
32-bit and wraps silently at extreme magnitudes.  The east neighbor of
`(x, y)` is `(x + 1, y)`, and incrementing a coordinate that decodes to
`i32::MAX` yields one that decodes to `i32::MIN`; there is no saturation
and no widening. -/
theorem coordinate_arithmetic_wraps :
    (∀ (S : CellSetType) (x y : Int32), (x + 1, y) ∈ get_neighbors_keys S (x, y)) ∧
    (∀ a : Int32, toInt (a + 1) =
      if toInt a = 2147483647 then -2147483648 else toInt a + 1) := by
  constructor
  · intro S x y
    simp [get_neighbors_keys]
  · exact add_one_wraps

/-- Claim C4: `update_cells` is deterministic and independent of the order
or multiplicity in which candidates are evaluated: filtering the rule over
any list enumeration of the candidate set (any order, any partition into
duplicated chunks) collapses to the same output set `update_cells S`. -/
theorem update_cells_eval_order_irrelevant (S : CellSetType) (l : List Pos)
    (hl : l.toFinset = S.biUnion (fun k => get_self_and_neighbors_keys S k)) :
    (l.filter (fun k => decide (ruleHolds S k))).toFinset = update_cells S := by
  rw [List.toFinset_filter, hl]
  unfold update_cells
  apply Finset.filter_congr
  intro k _
  simp

/-- Witness for C4: a concrete enumeration of the blinker's candidate set
evaluates to exactly `update_cells blinkerSet`. -/
theorem update_cells_eval_order_irrelevant_witness :
    (([((-2 : Int32), (-1 : Int32)), (-2, 0), (-2, 1), (-1, -1), (-1, 0), (-1, 1),
        (0, -1), (0, 0), (0, 1), (1, -1), (1, 0), (1, 1),
        (2, -1), (2, 0), (2, 1)] : List Pos).filter
      (fun k => decide (ruleHolds blinkerSet k))).toFinset = update_cells blinkerSet :=
  update_cells_eval_order_irrelevant blinkerSet _ (by decide)

/-- Claim C5: one step maps the blinker `{(-1,0),(0,0),(1,0)}` to exactly
`{(0,-1),(0,0),(0,1)}`, and a second step returns the original set. -/
theorem blinker_period_two :
    update_cells blinkerSet = {(0, -1), (0, 0), (0, 1)} ∧
    update_cells (update_cells blinkerSet) = blinkerSet := by
  refine ⟨by decide, by decide⟩

/-- Claim C6: four steps map the glider to its translate by the fixed
diagonal vector `(1, 1)` (both components decode to the integer 1, so
the vector is nonzero with absolute component values 1). -/
theorem glider_period_four_translation :
    iterate_update 4 gliderSet = translateSet (castOffset (1, 1)) gliderSet ∧
    toInt (castOffset (1, 1)).1 = 1 ∧ toInt (castOffset (1, 1)).2 = 1 := by
  refine ⟨by decide, by decide, by decide⟩

/-- Claim C7: for every coordinate, `get_neighbors_keys` returns exactly 8
coordinates, independent of which cells are live; the queried coordinate
is never among them; and the result is exactly the Moore neighborhood,
the images of the integer offsets of Chebyshev norm 1. -/
theorem get_neighbors_keys_spec (S : CellSetType) (k : Pos) :
    (get_neighbors_keys S k).card = 8 ∧
    (∀ T : CellSetType, get_neighbors_keys T k = get_neighbors_keys S k) ∧
    k ∉ get_neighbors_keys S k ∧
    (∀ p : Pos, p ∈ get_neighbors_keys S k ↔
      ∃ d : Int × Int, chebyshevOne d ∧ p = k + castOffset d) := by
  refine ⟨card_get_neighbors_keys S k, fun T => rfl,
    self_not_mem_get_neighbors_keys S k, fun p => ?_⟩
  rw [get_neighbors_keys_eq_image]
  simp only [Finset.mem_image]
  constructor
  · rintro ⟨q, hq, rfl⟩
    obtain ⟨d, hd, rfl⟩ := (mem_offsets8_iff q).mp hq
    exact ⟨d, hd, rfl⟩
  · rintro ⟨d, hd, rfl⟩
    exact ⟨castOffset d, (mem_offsets8_iff _).mpr ⟨d, hd, rfl⟩, rfl⟩

/-- Claim C8: `count_neighbors` is at most 8, equals the number of the 8
Moore-neighborhood coordinates of `k` present in `S`, and never counts `k`
itself: removing `k` from `S` leaves the count unchanged. -/
theorem count_neighbors_spec (S : CellSetType) (k : Pos) :
    count_neighbors S k ≤ 8 ∧
    count_neighbors S k = ((get_neighbors_keys S k).filter (fun p => p ∈ S)).card ∧
    count_neighbors (S.erase k) k = count_neighbors S k :=
  ⟨count_neighbors_le_eight S k, count_neighbors_eq_card S k, count_neighbors_erase S k⟩

/-- Claim C9: stepping the empty cell set yields the empty cell set. -/
theorem update_cells_empty : update_cells ∅ = ∅ := by decide

/-- Claim C10: `update_cells` commutes with translation: stepping the
componentwise (wrapping) translate of `S` by any vector `v` equals
translating `update_cells S` by `v`. -/
theorem update_cells_translate (S : CellSetType) (v : Pos) :
    update_cells (translateSet v S) = translateSet v (update_cells S) := by
  unfold update_cells
  rw [candidates_translate, Finset.filter_image, translateSet_eq_image_add]
  congr 1
  apply Finset.filter_congr
  intro k _
  exact ruleHolds_translate S v k
